import Mathlib

/-!
Verification of the rag-pipeline chunking, persistence and retrieval code.

JavaScript strings are modelled as `List Char`; JS `trim` is modelled with
`Char.isWhitespace`; `String.prototype.indexOf` is modelled by `jsIndexOf`
(`none` standing for `-1`).  Nat subtraction truncates at zero, which agrees
with the `Math.max(0, _)` guards used in the source.
-/

namespace RagPipeline

/-- Whitespace predicate used by the `trim` model. -/
def isWs (c : Char) : Bool := c.isWhitespace

/-- Model of JS `trimStart`. -/
def trimStartL (s : List Char) : List Char := s.dropWhile isWs

/-- Model of JS `trimEnd`. -/
def trimEndL (s : List Char) : List Char := (s.reverse.dropWhile isWs).reverse

/-- Model of JS `trim`. -/
def trimL (s : List Char) : List Char := trimEndL (trimStartL s)

/-- Model of JS `s.slice(a, b)` (also `content[a:b]` in the spec text). -/
def sliceL (s : List Char) (a b : Nat) : List Char := (s.drop a).take (b - a)

/-- The fragment `frag` occurs in `content` at position `i`. -/
def occursAt (content frag : List Char) (i : Nat) : Prop := frag <+: content.drop i

instance (content frag : List Char) (i : Nat) : Decidable (occursAt content frag i) := by
  unfold occursAt; infer_instance

/-- Linear scan underlying the `indexOf` model: try positions `i, i+1, ...`,
`fuel` many of them. -/
def firstFrom (content frag : List Char) : Nat → Nat → Option Nat
  | _, 0 => none
  | i, fuel+1 =>
    if frag <+: content.drop i then some i else firstFrom content frag (i+1) fuel

/-- Model of JS `content.indexOf(frag, s)`; `none` models `-1`.  The start
position is clamped to the length of the string, as in JS. -/
def jsIndexOf (content frag : List Char) (s : Nat) : Option Nat :=
  firstFrom content frag (min s content.length) (content.length + 1 - min s content.length)

/-- Decidable check that `frag` occurs somewhere in `content`. -/
def occursSomewhere (content frag : List Char) : Bool :=
  (List.range (content.length + 1)).any (fun i => decide (occursAt content frag i))

/-- A start/end offset pair, as produced by `findChunkOffsets`
(src/src/utils/chunk.ts). -/
structure OffsetPair where
  startOffset : Nat
  endOffset : Nat
  deriving Repr, DecidableEq

/-- The three-step start-offset resolution of `findChunkOffsets`
(src/src/utils/chunk.ts, lines 58-67): anchored `indexOf` from `searchStart`,
then (only when `searchStart > 0`) an unanchored `indexOf` from 0, then
`searchStart` itself as a placeholder. -/
def resolveStart (content chunk : List Char) (searchStart : Nat) : Nat :=
  match jsIndexOf content chunk searchStart with
  | some i => i
  | none =>
    match (if 0 < searchStart then jsIndexOf content chunk 0 else none) with
    | some i => i
    | none => searchStart

/-- Loop of `findChunkOffsets` (src/src/utils/chunk.ts, lines 57-72); the
second argument is the running `previousEnd`.  `previousEnd - chunkOverlap`
is Nat subtraction, matching `Math.max(0, previousEnd - chunkOverlap)`. -/
def findChunkOffsetsGo (content : List Char) (chunkOverlap : Nat) :
    List (List Char) → Nat → List OffsetPair
  | [], _ => []
  | chunk :: rest, previousEnd =>
    let searchStart := previousEnd - chunkOverlap
    let startOffset := resolveStart content chunk searchStart
    let endOffset := min (startOffset + chunk.length) content.length
    ⟨startOffset, endOffset⟩ :: findChunkOffsetsGo content chunkOverlap rest endOffset

/-- Model of `findChunkOffsets` (src/src/utils/chunk.ts, lines 49-75). -/
def findChunkOffsets (content : List Char) (chunks : List (List Char))
    (chunkOverlap : Nat) : List OffsetPair :=
  findChunkOffsetsGo content chunkOverlap chunks 0

/-! The chunking data model (src/src/utils/chunk.ts). -/

/-- Metadata of a chunk (src/src/utils/chunk.ts, interface Chunk). -/
structure ChunkMetadata where
  filePath : List Char
  chunkIndex : Nat
  startOffset : Nat
  endOffset : Nat
  deriving Repr, DecidableEq

/-- A chunk of text from a document (src/src/utils/chunk.ts). -/
structure Chunk where
  content : List Char
  metadata : ChunkMetadata
  deriving Repr, DecidableEq

/-- Chunking configuration (src/src/utils/chunk.ts, interface ChunkConfig). -/
structure ChunkConfig where
  chunkSize : Nat
  chunkOverlap : Nat
  deriving Repr, DecidableEq

/-- A document loaded from a markdown file (src/src/ingest.ts, interface
Document). -/
structure Document where
  filePath : List Char
  content : List Char
  category : List Char
  deriving Repr, DecidableEq

/-- Loop body of `chunkDocument` (src/src/utils/chunk.ts, lines 115-145):
walk the splits paired with their raw offsets, skip whitespace-only splits
without reserving a `chunkIndex` slot, and adjust the raw offsets for the
whitespace trimmed off the fragment.  In the source
`rawOffsets.endOffset - trailingTrim` can be negative before the clamps; the
Nat truncation used here yields the same final `safeEndOffset` because of the
outer `max` with `startOffset`. -/
def buildChunks (content filePath : List Char) :
    List (List Char × OffsetPair) → Nat → List Chunk
  | [], _ => []
  | (rawSplit, rawOffsets) :: rest, chunkIndex =>
    let trimmedSplit := trimL rawSplit
    if trimmedSplit.length = 0 then
      buildChunks content filePath rest chunkIndex
    else
      let leadingTrim := rawSplit.length - (trimStartL rawSplit).length
      let trailingTrim := rawSplit.length - (trimEndL rawSplit).length
      let startOffset := min (rawOffsets.startOffset + leadingTrim) content.length
      let endOffset := min (rawOffsets.endOffset - trailingTrim) content.length
      let safeEndOffset := max startOffset endOffset
      ⟨trimmedSplit, ⟨filePath, chunkIndex, startOffset, safeEndOffset⟩⟩ ::
        buildChunks content filePath rest (chunkIndex + 1)

/-- Model of `chunkDocument` (src/src/utils/chunk.ts, lines 90-148).  The
external LangChain splitter is a parameter of the source function; its output
is modelled by the argument `rawSplits`, so the model is quantified over every
possible splitter output. -/
def chunkDocument (document : Document) (config : ChunkConfig)
    (rawSplits : List (List Char)) : List Chunk :=
  let content := document.content
  if (trimL content).length = 0 then []
  else
    let splits := rawSplits.filter (fun s => (trimL s).length > 0)
    if splits.length = 0 then []
    else
      let offsets := findChunkOffsets content splits config.chunkOverlap
      buildChunks content document.filePath (splits.zip offsets) 0

/-- The run of trailing whitespace of `s`. -/
def wsTail (s : List Char) : List Char := (s.reverse.takeWhile isWs).reverse

/-! C1: the spec-side characterization of the offset resolver, written from
the claim text, and the conformance theorem. -/

/-- Spec wording: `i` is the first occurrence of `frag` at or after `s`. -/
def FirstOccurrenceFrom (content frag : List Char) (s i : Nat) : Prop :=
  s ≤ i ∧ occursAt content frag i ∧ ∀ j, s ≤ j → occursAt content frag j → i ≤ j

/-- Spec wording for resolving one start offset: first occurrence at or after
`searchStart`; if none is found and `searchStart > 0`, the first occurrence of
an unanchored search from position 0; if still not found, `searchStart`
itself. -/
def ClaimStart (content frag : List Char) (searchStart i : Nat) : Prop :=
  FirstOccurrenceFrom content frag searchStart i
  ∨ ((∀ j, searchStart ≤ j → ¬ occursAt content frag j) ∧ 0 < searchStart
      ∧ FirstOccurrenceFrom content frag 0 i)
  ∨ ((∀ j, ¬ occursAt content frag j) ∧ i = searchStart)

/-- Spec wording for the whole offset-resolution pass: running `previousEnd`,
`searchStart = max(0, previousEnd - chunkOverlap)` (Nat subtraction), one
`{start, end}` pair per fragment with `end = min(start + frag.length, length)`
and `previousEnd` updated to `end`. -/
def ClaimResolve (content : List Char) (chunkOverlap : Nat) :
    Nat → List (List Char) → List OffsetPair → Prop
  | _, [], offsets => offsets = []
  | previousEnd, frag :: rest, offsets =>
    ∃ p tail, offsets = p :: tail
      ∧ ClaimStart content frag (previousEnd - chunkOverlap) p.startOffset
      ∧ p.endOffset = min (p.startOffset + frag.length) content.length
      ∧ ClaimResolve content chunkOverlap p.endOffset rest tail

/-- The property claimed by C2 for one `chunkDocument` run: the slice of the
original document at each stored offset pair, after trimming, equals the
stored chunk content. -/
def SliceTrimAgrees (doc : Document) (config : ChunkConfig)
    (rawSplits : List (List Char)) : Prop :=
  ∀ c ∈ chunkDocument doc config rawSplits,
    trimL (sliceL doc.content c.metadata.startOffset c.metadata.endOffset) = c.content

instance (doc : Document) (config : ChunkConfig) (rawSplits : List (List Char)) :
    Decidable (SliceTrimAgrees doc config rawSplits) :=
  inferInstanceAs (Decidable (∀ c ∈ chunkDocument doc config rawSplits,
    trimL (sliceL doc.content c.metadata.startOffset c.metadata.endOffset) = c.content))

/-- The monotonicity property claimed by C3 for a chunk sequence: each
chunk's `startOffset` is at most the next one's, and in particular never
exceeds the next one's by more than `chunkOverlap`. -/
def startsMonotoneB (chunkOverlap : Nat) : List Chunk → Bool
  | a :: b :: rest =>
    (decide (a.metadata.startOffset ≤ b.metadata.startOffset)
        && decide (a.metadata.startOffset ≤ b.metadata.startOffset + chunkOverlap))
      && startsMonotoneB chunkOverlap (b :: rest)
  | _ => true

/-- Instrumentation of the offset-resolution pass: `true` when every fragment
is located by the anchored `indexOf` search (no unanchored retry, no
placeholder fallback). -/
def anchoredResolved (content : List Char) (chunkOverlap : Nat) :
    List (List Char) → Nat → Bool
  | [], _ => true
  | chunk :: rest, previousEnd =>
    match jsIndexOf content chunk (previousEnd - chunkOverlap) with
    | none => false
    | some i =>
      anchoredResolved content chunkOverlap rest (min (i + chunk.length) content.length)

/-! Persistence model (src/src/utils/database.ts).  Embedding vectors (JS
floats) are modelled as rational numbers. -/

/-- Input for inserting a document (src/src/utils/database.ts,
interface DocumentInput). -/
structure DocumentInput where
  content : List Char
  category : List Char
  filePath : List Char
  deriving DecidableEq

/-- Input for inserting a document chunk (src/src/utils/database.ts,
interface DocumentChunkInput). -/
structure DocumentChunkInput where
  content : List Char
  chunkIndex : Nat
  startOffset : Nat
  endOffset : Nat
  embedding : List ℚ
  deriving DecidableEq

/-- Input for inserting a document with its chunks
(src/src/utils/database.ts, interface DocumentWithChunksInput). -/
structure DocumentWithChunksInput where
  document : DocumentInput
  chunks : List DocumentChunkInput
  deriving DecidableEq

/-- A row of the store, tagged with the batch index of the document it
belongs to. -/
inductive DbRow where
  | doc (docIdx : Nat) (d : DocumentInput)
  | chunk (docIdx : Nat) (c : DocumentChunkInput)
  deriving DecidableEq

/-- Chunk-insert loop of `insertDocumentChunks` run inside the transaction
(src/src/utils/database.ts, lines 233-246): one insert per chunk, in order;
`none` models an insert throwing (e.g. an embedding vector insert failing
mid-batch), decided by the fault oracle `chunkFails`. -/
def insertChunksTx (docIdx : Nat) (chunkFails : Nat → Nat → Bool) :
    List DocumentChunkInput → Nat → Option (List DbRow)
  | [], _ => some []
  | c :: rest, j =>
    if chunkFails docIdx j then none
    else
      match insertChunksTx docIdx chunkFails rest (j + 1) with
      | none => none
      | some rows => some (DbRow.chunk docIdx c :: rows)

/-- Document loop of `insertDocuments` run inside the transaction
(src/src/utils/database.ts, lines 270-274): for each document of the batch,
insert the document row, then its chunk rows; `none` models any insert
throwing. -/
def insertDocsTx (docFails : Nat → Bool) (chunkFails : Nat → Nat → Bool) :
    List DocumentWithChunksInput → Nat → Option (List DbRow)
  | [], _ => some []
  | d :: rest, i =>
    if docFails i then none
    else
      match insertChunksTx i chunkFails d.chunks 0 with
      | none => none
      | some rows =>
        match insertDocsTx docFails chunkFails rest (i + 1) with
        | none => none
        | some more => some (DbRow.doc i d.document :: (rows ++ more))

/-- Model of `insertDocuments` (src/src/utils/database.ts, lines 257-284):
one client, one `BEGIN` for the whole batch; on success `COMMIT` makes every
pending row of the batch visible at once; on any failure `ROLLBACK` leaves
the committed store unchanged and the error propagates (success flag
`false`).  Returns the final committed store and the success flag. -/
def insertDocuments (db : List DbRow) (docs : List DocumentWithChunksInput)
    (docFails : Nat → Bool) (chunkFails : Nat → Nat → Bool) : List DbRow × Bool :=
  match insertDocsTx docFails chunkFails docs 0 with
  | some pending => (db ++ pending, true)
  | none => (db, false)

/-- All rows of a batch in insertion order, document `i` followed by its
chunk rows. -/
def batchRows : List DocumentWithChunksInput → Nat → List DbRow
  | [], _ => []
  | d :: rest, i =>
    DbRow.doc i d.document :: (d.chunks.map (DbRow.chunk i) ++ batchRows rest (i + 1))

/-! Retrieval model (src/src/utils/database.ts `searchByVector` and
src/unnamed/part_002 `retrieve`).  The SQL engine is external: the query text
of `searchByVector` is modelled over an abstract table of joined
document_chunk/document rows, with the pgvector cosine-distance operator
abstracted as a distance function `dist`. -/

/-- A joined row of `document_chunk` and `document` as read by
`searchByVector` (src/src/utils/database.ts, lines 323-340; schema in
src/init.sql).  `embedding` is `none` for a NULL vector. -/
structure StoredChunkRow where
  id : Nat
  documentId : Nat
  content : List Char
  category : List Char
  filePath : List Char
  chunkIndex : Nat
  startOffset : Nat
  endOffset : Nat
  embedding : Option (List ℚ)
  deriving DecidableEq

/-- Search result with similarity score (src/src/utils/database.ts,
interface SearchResult). -/
structure SearchResult where
  id : Nat
  documentId : Nat
  content : List Char
  category : List Char
  filePath : List Char
  chunkIndex : Nat
  startOffset : Nat
  endOffset : Nat
  similarity : ℚ
  rank : Option Nat
  deriving DecidableEq

/-- The WHERE clause of `searchByVector`:
`embedding IS NOT NULL AND ($3::text IS NULL OR d.category = $3)`. -/
def whereRow (category : Option (List Char)) (r : StoredChunkRow) : Bool :=
  r.embedding.isSome &&
    (match category with
     | none => true
     | some c => decide (r.category = c))

/-- Distance of a row's embedding from the query vector (`embedding <=> $1`,
with the cosine-distance operator abstract). -/
def rowDist (dist : List ℚ → List ℚ → ℚ) (q : List ℚ) (r : StoredChunkRow) : ℚ :=
  dist (r.embedding.getD []) q

/-- Ascending-distance ordering on rows, used by the `ORDER BY` model. -/
def distLE (dist : List ℚ → List ℚ → ℚ) (q : List ℚ) (a b : StoredChunkRow) : Prop :=
  rowDist dist q a ≤ rowDist dist q b

instance (dist : List ℚ → List ℚ → ℚ) (q : List ℚ) : DecidableRel (distLE dist q) :=
  fun a b => inferInstanceAs (Decidable (rowDist dist q a ≤ rowDist dist q b))

/-- Model of `searchByVector` (src/src/utils/database.ts, lines 318-353):
filter by the WHERE clause, order by ascending distance
(`ORDER BY dc.embedding <=> $1`, modelled as an insertion sort), `LIMIT $2`,
and project each row to a `SearchResult` with
`similarity = 1 - (embedding <=> $1)` and no rank. -/
def searchByVector (dist : List ℚ → List ℚ → ℚ) (table : List StoredChunkRow)
    (embedding : List ℚ) (limit : Nat) (category : Option (List Char)) :
    List SearchResult :=
  ((List.insertionSort (distLE dist embedding)
      (table.filter (whereRow category))).take limit).map
    (fun r => ⟨r.id, r.documentId, r.content, r.category, r.filePath, r.chunkIndex,
      r.startOffset, r.endOffset, 1 - rowDist dist embedding r, none⟩)

/-- Result of a retrieval operation (src/unnamed/part_002, interface
RetrieveResult); `timeTaken` is wall-clock time and is not modelled. -/
structure RetrieveResult where
  query : List Char
  results : List SearchResult
  deriving DecidableEq

/-- Model of `retrieve` (src/unnamed/part_002, lines 85-113): embed the query
(the external embedding provider is abstracted as `embedQuery`, assumed to
succeed) and delegate to `searchByVector` with `topK` and the optional
category; no category means no category restriction. -/
def retrieve (dist : List ℚ → List ℚ → ℚ) (table : List StoredChunkRow)
    (embedQuery : List Char → List ℚ) (query : List Char) (topK : Nat)
    (category : Option (List Char)) : RetrieveResult :=
  ⟨query, searchByVector dist table (embedQuery query) topK category⟩

/-! Embedding model (src/src/utils/embed.ts). -/

/-- A chunk with its embedding vector (src/src/utils/embed.ts, interface
EmbeddedChunk extends Chunk). -/
structure EmbeddedChunk where
  toChunk : Chunk
  embedding : List ℚ
  deriving DecidableEq

/-- Model of `embedChunks` (src/src/utils/embed.ts, lines 112-130):
sequentially walk the chunks, call the embedding provider on each chunk's
content (the provider is abstracted as `embed` and assumed to succeed), and
push the spread `{...chunk, embedding}`. -/
def embedChunks (embed : List Char → List ℚ) : List Chunk → List EmbeddedChunk
  | [] => []
  | c :: rest => ⟨c, embed c.content⟩ :: embedChunks embed rest

/-! Evaluation model (src/unnamed/part_001 `runEval`). -/

/-- Per-chunk evaluation result (src/unnamed/part_001, interface
ChunkEvaluation). -/
structure ChunkEvaluation where
  chunkIndex : Nat
  filePath : List Char
  relevance : Nat
  sufficiency : Nat
  reasoning : List Char
  deriving DecidableEq

/-- Overall evaluation result (src/unnamed/part_001, interface EvalResult);
`timeTaken` is wall-clock time and is not modelled. -/
structure EvalResult where
  query : List Char
  chunks : List ChunkEvaluation
  avgRelevance : ℚ
  avgSufficiency : ℚ
  deriving DecidableEq

/-- The fixed reasoning string recorded for a failed evaluation
(src/unnamed/part_001, line 279). -/
def failedEvalReasoning : List Char :=
  ("Evaluation failed; defaulted to lowest scores.").data

/-- The evaluation recorded when judging a chunk throws
(src/unnamed/part_001, lines 274-281). -/
def failedEvaluation (r : SearchResult) : ChunkEvaluation :=
  ⟨r.chunkIndex, r.filePath, 1, 1, failedEvalReasoning⟩

/-- Evaluation loop of `runEval` (src/unnamed/part_001, lines 260-282).  The
judge call `evaluateChunk` is abstracted as `judge` (its internals are an
external model call plus response parsing, either of which may throw,
modelled by `Except.error` with the error message); a failed evaluation is
recorded with both scores 1 and the fixed reasoning string, and the loop
continues with the remaining chunks. -/
def runEvalGo (judge : SearchResult → Except (List Char) ChunkEvaluation) :
    List SearchResult → List ChunkEvaluation
  | [] => []
  | r :: rest =>
    (match judge r with
     | Except.ok e => e
     | Except.error _ => failedEvaluation r) :: runEvalGo judge rest

/-- Model of `runEval` (src/unnamed/part_001, lines 244-304): evaluate every
retrieved chunk (the retrieval result is passed in as `results`), then
average the scores over the evaluations (0 when there are none). -/
def runEval (judge : SearchResult → Except (List Char) ChunkEvaluation)
    (query : List Char) (results : List SearchResult) : EvalResult :=
  let evaluations := runEvalGo judge results
  let avgRelevance : ℚ :=
    if 0 < evaluations.length
    then (evaluations.map (fun e => (e.relevance : ℚ))).sum / evaluations.length
    else 0
  let avgSufficiency : ℚ :=
    if 0 < evaluations.length
    then (evaluations.map (fun e => (e.sufficiency : ℚ))).sum / evaluations.length
    else 0
  ⟨query, evaluations, avgRelevance, avgSufficiency⟩

/-! Basic facts about the `indexOf` model. -/

theorem firstFrom_some {content frag : List Char} {i fuel r : Nat}
    (h : firstFrom content frag i fuel = some r) :
    i ≤ r ∧ occursAt content frag r ∧ ∀ j, i ≤ j → j < r → ¬ occursAt content frag j := by
  induction fuel generalizing i with
  | zero => simp [firstFrom] at h
  | succ fuel ih =>
    rw [firstFrom] at h
    by_cases hp : frag <+: content.drop i
    · simp [hp] at h
      subst h
      exact ⟨le_refl _, hp, fun j hij hjr => absurd (lt_of_le_of_lt hij hjr) (lt_irrefl _)⟩
    · simp [hp] at h
      obtain ⟨hir, hocc, hmin⟩ := ih h
      refine ⟨le_trans (Nat.le_succ i) hir, hocc, fun j hij hjr hocc2 => ?_⟩
      rcases Nat.eq_or_lt_of_le hij with rfl | hlt
      · exact hp hocc2
      · exact hmin j hlt hjr hocc2

theorem firstFrom_none {content frag : List Char} {i fuel : Nat}
    (h : firstFrom content frag i fuel = none) :
    ∀ j, i ≤ j → j < i + fuel → ¬ occursAt content frag j := by
  induction fuel generalizing i with
  | zero => intro j hij hj; omega
  | succ fuel ih =>
    rw [firstFrom] at h
    by_cases hp : frag <+: content.drop i
    · simp [hp] at h
    · simp [hp] at h
      intro j hij hj hocc
      rcases Nat.eq_or_lt_of_le hij with rfl | hlt
      · exact hp hocc
      · exact ih h j hlt (by omega) hocc

theorem occursAt_le_length {content frag : List Char} {j : Nat}
    (h : occursAt content frag j) (hne : frag ≠ []) : j ≤ content.length := by
  by_contra hj
  push_neg at hj
  have hdrop : content.drop j = [] := List.drop_eq_nil_of_le (le_of_lt hj)
  rw [occursAt, hdrop] at h
  exact hne (List.prefix_nil.mp h)

theorem jsIndexOf_some {content frag : List Char} {s r : Nat}
    (hs : s ≤ content.length) (h : jsIndexOf content frag s = some r) :
    s ≤ r ∧ occursAt content frag r ∧ ∀ j, s ≤ j → occursAt content frag j → r ≤ j := by
  rw [jsIndexOf, Nat.min_eq_left hs] at h
  obtain ⟨hsr, hocc, hmin⟩ := firstFrom_some h
  refine ⟨hsr, hocc, fun j hsj hocc2 => ?_⟩
  by_contra hlt
  push_neg at hlt
  exact hmin j hsj hlt hocc2

theorem jsIndexOf_none {content frag : List Char} {s : Nat}
    (hs : s ≤ content.length) (h : jsIndexOf content frag s = none) :
    ∀ j, s ≤ j → ¬ occursAt content frag j := by
  rw [jsIndexOf, Nat.min_eq_left hs] at h
  intro j hsj hocc
  have hfrag : frag ≠ [] := by
    intro hnil
    have : s < s + (content.length + 1 - s) := by omega
    exact firstFrom_none h s (le_refl s) this (by simp [occursAt, hnil])
  have hjle : j ≤ content.length := occursAt_le_length hocc hfrag
  exact firstFrom_none h j hsj (by omega) hocc

theorem resolveStart_claimStart {content frag : List Char} {searchStart : Nat}
    (hs : searchStart ≤ content.length) :
    ClaimStart content frag searchStart (resolveStart content frag searchStart) := by
  rw [resolveStart]
  cases hja : jsIndexOf content frag searchStart with
  | some i =>
    exact Or.inl (jsIndexOf_some hs hja)
  | none =>
    have hnone := jsIndexOf_none hs hja
    by_cases hpos : 0 < searchStart
    · simp only [hpos, if_pos]
      cases hj0 : jsIndexOf content frag 0 with
      | some i =>
        exact Or.inr (Or.inl ⟨hnone, hpos, jsIndexOf_some (Nat.zero_le _) hj0⟩)
      | none =>
        refine Or.inr (Or.inr ⟨fun j => ?_, rfl⟩)
        exact jsIndexOf_none (Nat.zero_le _) hj0 j (Nat.zero_le _)
    · simp only [hpos, if_neg, if_false]
      refine Or.inr (Or.inr ⟨fun j => ?_, rfl⟩)
      have h0 : searchStart = 0 := by omega
      exact hnone j (h0 ▸ Nat.zero_le j)

theorem findChunkOffsetsGo_claimResolve (content : List Char) (chunkOverlap : Nat)
    (frags : List (List Char)) (previousEnd : Nat) (hprev : previousEnd ≤ content.length) :
    ClaimResolve content chunkOverlap previousEnd frags
      (findChunkOffsetsGo content chunkOverlap frags previousEnd) := by
  induction frags generalizing previousEnd with
  | nil => simp [findChunkOffsetsGo, ClaimResolve]
  | cons frag rest ih =>
    rw [findChunkOffsetsGo, ClaimResolve]
    refine ⟨_, _, rfl, ?_, rfl, ?_⟩
    · exact resolveStart_claimStart (by omega)
    · exact ih _ (by simp)

/-- C1 (confirmed).  For every original text, ordered fragment list and
`chunkOverlap`, `findChunkOffsets` computes one `{start, end}` pair per
fragment, in order, by exactly the claimed algorithm: `previousEnd` starts at
0; `searchStart = max(0, previousEnd - chunkOverlap)`; the start is the first
occurrence of the fragment at or after `searchStart`, else (when
`searchStart > 0`) the first occurrence of an unanchored search from 0, else
`searchStart` itself; `end = min(start + fragment.length, content.length)`
and `previousEnd` becomes `end`. -/
theorem findChunkOffsets_follows_claim (content : List Char)
    (frags : List (List Char)) (chunkOverlap : Nat) :
    ClaimResolve content chunkOverlap 0 frags
      (findChunkOffsets content frags chunkOverlap) :=
  findChunkOffsetsGo_claimResolve content chunkOverlap frags 0 (Nat.zero_le _)

/-! Structural facts about the trim model. -/

theorem take_of_pref {l1 l2 : List Char} (h : l1 <+: l2) : l2.take l1.length = l1 := by
  obtain ⟨t, rfl⟩ := h
  exact List.take_left _ _

theorem mem_takeWhile_ws {s : List Char} : ∀ b ∈ s.takeWhile isWs, isWs b := by
  induction s with
  | nil => simp
  | cons a t ih =>
    by_cases ha : isWs a
    · rw [List.takeWhile_cons_of_pos ha]
      intro b hb
      rcases List.mem_cons.mp hb with rfl | hb2
      · exact ha
      · exact ih b hb2
    · rw [List.takeWhile_cons_of_neg ha]
      intro b hb
      exact absurd hb (List.not_mem_nil b)

theorem wsTail_all_ws (s : List Char) : ∀ b ∈ wsTail s, isWs b := by
  intro b hb
  simp only [wsTail, List.mem_reverse] at hb
  exact mem_takeWhile_ws b hb

theorem trimStartL_decomp (s : List Char) : s.takeWhile isWs ++ trimStartL s = s :=
  List.takeWhile_append_dropWhile isWs s

theorem trimEndL_decomp (s : List Char) : trimEndL s ++ wsTail s = s := by
  simp only [trimEndL, wsTail]
  rw [← List.reverse_append, List.takeWhile_append_dropWhile, List.reverse_reverse]

theorem dropWhile_append_all {C l : List Char} (h : ∀ b ∈ C, isWs b) :
    (C ++ l).dropWhile isWs = l.dropWhile isWs := by
  induction C with
  | nil => simp
  | cons c C ih =>
    have hc : isWs c := h c (List.mem_cons_self c C)
    rw [List.cons_append, List.dropWhile_cons_of_pos hc]
    exact ih (fun b hb => h b (List.mem_cons_of_mem _ hb))

theorem dropWhile_head_false {p : Char → Bool} {s t : List Char} {a : Char}
    (h : s.dropWhile p = a :: t) : p a = false := by
  induction s with
  | nil => simp at h
  | cons b s ih =>
    by_cases hb : p b
    · rw [List.dropWhile_cons_of_pos hb] at h
      exact ih h
    · rw [List.dropWhile_cons_of_neg hb] at h
      injection h with h1 h2
      subst h1
      simpa using hb

theorem trimEndL_rev_head_false {s : List Char} {a : Char} {r : List Char}
    (h : (trimEndL s).reverse = a :: r) : isWs a = false := by
  simp only [trimEndL, List.reverse_reverse] at h
  exact dropWhile_head_false h

theorem trimEndL_append_ws {X B : List Char} (hB : ∀ b ∈ B, isWs b)
    {a : Char} {r : List Char} (hXr : X.reverse = a :: r) (ha : isWs a = false) :
    trimEndL (X ++ B) = X := by
  simp only [trimEndL, List.reverse_append]
  rw [dropWhile_append_all (fun b hb => hB b (List.mem_reverse.mp hb)), hXr,
    List.dropWhile_cons_of_neg (by simp [ha]), ← hXr, List.reverse_reverse]

theorem trimL_head_false {s : List Char} {a : Char} {t : List Char}
    (hcons : trimL s = a :: t) : isWs a = false := by
  have ht : trimL s ++ wsTail (trimStartL s) = trimStartL s :=
    trimEndL_decomp (trimStartL s)
  have h2 : s.dropWhile isWs = a :: (t ++ wsTail (trimStartL s)) := by
    show trimStartL s = a :: (t ++ wsTail (trimStartL s))
    conv_lhs => rw [← ht, hcons]
    rfl
  exact dropWhile_head_false h2

theorem trimEndL_trimEndL (u : List Char) : trimEndL (trimEndL u) = trimEndL u := by
  simp only [trimEndL, List.reverse_reverse]
  rw [List.dropWhile_idempotent]

theorem trimL_trimL (s : List Char) : trimL (trimL s) = trimL s := by
  by_cases h : trimL s = []
  · rw [h]
    rfl
  · have hds : trimStartL (trimL s) = trimL s := by
      cases hts : trimL s with
      | nil => exact absurd hts h
      | cons a t =>
        have ha : isWs a = false := trimL_head_false hts
        show (a :: t).dropWhile isWs = a :: t
        rw [List.dropWhile_cons_of_neg (by simp [ha])]
    show trimEndL (trimStartL (trimL s)) = trimL s
    rw [hds]
    exact trimEndL_trimEndL (trimStartL s)

theorem trim_parts {s : List Char} (h : trimL s ≠ []) :
    s = s.takeWhile isWs ++ trimL s ++ wsTail (trimStartL s)
    ∧ trimEndL s = s.takeWhile isWs ++ trimL s := by
  have h1 : s.takeWhile isWs ++ trimStartL s = s := trimStartL_decomp s
  have h2 : trimL s ++ wsTail (trimStartL s) = trimStartL s :=
    trimEndL_decomp (trimStartL s)
  obtain ⟨a, r, har⟩ : ∃ a r, (trimL s).reverse = a :: r := by
    cases hr : (trimL s).reverse with
    | nil => exact absurd (by simpa using hr) h
    | cons a r => exact ⟨a, r, rfl⟩
  have ha : isWs a = false := @trimEndL_rev_head_false (trimStartL s) a r har
  refine ⟨by rw [List.append_assoc, h2, h1], ?_⟩
  have hXr : (s.takeWhile isWs ++ trimL s).reverse
      = a :: (r ++ (s.takeWhile isWs).reverse) := by
    rw [List.reverse_append, har, List.cons_append]
  calc trimEndL s
      = trimEndL ((s.takeWhile isWs ++ trimL s) ++ wsTail (trimStartL s)) := by
        rw [List.append_assoc, h2, h1]
    _ = s.takeWhile isWs ++ trimL s :=
        trimEndL_append_ws (wsTail_all_ws _) hXr ha

theorem trim_lengths {s : List Char} (h : trimL s ≠ []) :
    s.length - (trimStartL s).length = (s.takeWhile isWs).length
    ∧ s.length - (trimEndL s).length = (wsTail (trimStartL s)).length
    ∧ (s.takeWhile isWs).length + (trimL s).length
        + (wsTail (trimStartL s)).length = s.length := by
  obtain ⟨hs, he⟩ := trim_parts h
  have l1 : s.length = (s.takeWhile isWs).length + ((trimL s).length
      + (wsTail (trimStartL s)).length) := by
    conv_lhs => rw [hs]
    simp [List.length_append]
  have l2 : (trimEndL s).length = (s.takeWhile isWs).length + (trimL s).length := by
    rw [he, List.length_append]
  have l3 : (trimStartL s).length
      = (trimL s).length + (wsTail (trimStartL s)).length := by
    conv_lhs => rw [← trimEndL_decomp (trimStartL s)]
    rw [List.length_append]
    rfl
  exact ⟨by omega, by omega, by omega⟩

theorem firstFrom_some_lt {content frag : List Char} {i fuel r : Nat}
    (h : firstFrom content frag i fuel = some r) : r < i + fuel := by
  induction fuel generalizing i with
  | zero => simp [firstFrom] at h
  | succ fuel ih =>
    rw [firstFrom] at h
    by_cases hp : frag <+: content.drop i
    · simp [hp] at h
      omega
    · simp [hp] at h
      have := ih h
      omega

theorem jsIndexOf_le_length {content frag : List Char} {s r : Nat}
    (h : jsIndexOf content frag s = some r) : r ≤ content.length := by
  rw [jsIndexOf] at h
  have hlt := firstFrom_some_lt h
  have : min s content.length ≤ content.length := Nat.min_le_right _ _
  omega

theorem occursSomewhere_iff {content frag : List Char} :
    occursSomewhere content frag = true ↔ ∃ j, occursAt content frag j := by
  rw [occursSomewhere, List.any_eq_true]
  constructor
  · rintro ⟨i, _, hp⟩
    exact ⟨i, of_decide_eq_true hp⟩
  · rintro ⟨j, hj⟩
    by_cases hfrag : frag = []
    · refine ⟨0, by simp, decide_eq_true ?_⟩
      simp [occursAt, hfrag]
    · have hle := occursAt_le_length hj hfrag
      refine ⟨j, ?_, decide_eq_true hj⟩
      rw [List.mem_range]
      omega

/-- Core offset computation: when the raw fragment really occurs at position
`i` of the original text, the trim-adjusted slice recovers exactly the trimmed
fragment. -/
theorem slice_of_found {content raw : List Char} {i : Nat}
    (hocc : occursAt content raw i) (hne : trimL raw ≠ []) :
    sliceL content (i + (raw.length - (trimStartL raw).length))
      (i + raw.length - (raw.length - (trimEndL raw).length)) = trimL raw := by
  obtain ⟨hlead, htrail, hsum⟩ := trim_lengths hne
  set lead := raw.length - (trimStartL raw).length with hleaddef
  set trail := raw.length - (trimEndL raw).length with htraildef
  set k := (trimL raw).length with hkdef
  have hsum2 : lead + k + trail = raw.length := by omega
  have hraw : (content.drop i).take raw.length = raw := take_of_pref hocc
  have hstart : trimStartL raw = raw.drop lead := by
    conv_rhs => rw [← trimStartL_decomp raw]
    rw [List.drop_left' hlead.symm]
  have htrim : (trimStartL raw).take k = trimL raw := by
    conv_lhs => rw [← trimEndL_decomp (trimStartL raw)]
    exact List.take_left' hkdef.symm
  rw [sliceL]
  have harith : (i + raw.length - trail) - (i + lead) = k := by omega
  rw [harith]
  have hdd : content.drop (i + lead) = (content.drop i).drop lead := by
    rw [List.drop_drop]
  rw [hdd]
  have hdt : trimStartL raw = ((content.drop i).drop lead).take (raw.length - lead) := by
    rw [hstart]
    conv_lhs => rw [← hraw]
    rw [List.drop_take]
  calc ((content.drop i).drop lead).take k
      = (((content.drop i).drop lead).take (raw.length - lead)).take k := by
        rw [List.take_take, Nat.min_eq_left (by omega)]
    _ = (trimStartL raw).take k := by rw [← hdt]
    _ = trimL raw := htrim

/-- Characterization of the chunks emitted by the `chunkDocument` loop. -/
theorem mem_buildChunks {content filePath : List Char} :
    ∀ {pairs : List (List Char × OffsetPair)} {k : Nat} {c : Chunk},
    c ∈ buildChunks content filePath pairs k →
    ∃ raw off, (raw, off) ∈ pairs ∧ trimL raw ≠ []
      ∧ c.content = trimL raw
      ∧ c.metadata.startOffset
          = min (off.startOffset + (raw.length - (trimStartL raw).length)) content.length
      ∧ c.metadata.endOffset
          = max c.metadata.startOffset
              (min (off.endOffset - (raw.length - (trimEndL raw).length)) content.length) := by
  intro pairs
  induction pairs with
  | nil => intro k c hc; simp [buildChunks] at hc
  | cons p rest ih =>
    intro k c hc
    obtain ⟨rawSplit, rawOffsets⟩ := p
    rw [buildChunks] at hc
    by_cases hts : (trimL rawSplit).length = 0
    · rw [if_pos hts] at hc
      obtain ⟨raw, off, hmem, h1, h2, h3, h4⟩ := ih hc
      exact ⟨raw, off, List.mem_cons_of_mem _ hmem, h1, h2, h3, h4⟩
    · rw [if_neg hts] at hc
      rcases List.mem_cons.mp hc with rfl | htl
      · refine ⟨rawSplit, rawOffsets, List.mem_cons_self _ _, ?_, rfl, rfl, rfl⟩
        intro hnil
        rw [hnil] at hts
        simp at hts
      · obtain ⟨raw, off, hmem, h1, h2, h3, h4⟩ := ih htl
        exact ⟨raw, off, List.mem_cons_of_mem _ hmem, h1, h2, h3, h4⟩

/-- Every fragment/offset pair produced by the offset resolver satisfies:
if the fragment occurs anywhere in the text, its resolved start offset is a
true occurrence, and its end offset is exactly `start + length`. -/
theorem zip_offsets_found {content : List Char} {ov : Nat} :
    ∀ {splits : List (List Char)} {prevEnd : Nat}, prevEnd ≤ content.length →
    ∀ {raw : List Char} {off : OffsetPair},
    (raw, off) ∈ splits.zip (findChunkOffsetsGo content ov splits prevEnd) →
    occursSomewhere content raw = true →
    occursAt content raw off.startOffset ∧ off.endOffset = off.startOffset + raw.length := by
  intro splits
  induction splits with
  | nil => intro prevEnd _ raw off hmem; simp [findChunkOffsetsGo] at hmem
  | cons chunk rest ih =>
    intro prevEnd hprev raw off hmem hsome
    rw [findChunkOffsetsGo, List.zip_cons_cons] at hmem
    have hss : prevEnd - ov ≤ content.length := by omega
    rcases List.mem_cons.mp hmem with heq | htl
    · injection heq with heq1 heq2
      subst heq1
      subst heq2
      obtain ⟨j, hj⟩ := occursSomewhere_iff.mp hsome
      have hstart : occursAt content raw (resolveStart content raw (prevEnd - ov))
          ∧ resolveStart content raw (prevEnd - ov) ≤ content.length := by
        rw [resolveStart]
        cases hja : jsIndexOf content raw (prevEnd - ov) with
        | some i =>
          exact ⟨(jsIndexOf_some hss hja).2.1, jsIndexOf_le_length hja⟩
        | none =>
          have hnone := jsIndexOf_none hss hja
          by_cases hpos : 0 < prevEnd - ov
          · simp only [hpos, if_pos]
            cases hj0 : jsIndexOf content raw 0 with
            | some i =>
              exact ⟨(jsIndexOf_some (Nat.zero_le _) hj0).2.1, jsIndexOf_le_length hj0⟩
            | none =>
              exact absurd hj (jsIndexOf_none (Nat.zero_le _) hj0 j (Nat.zero_le _))
          · have h0 : prevEnd - ov = 0 := by omega
            rw [h0] at hnone
            exact absurd hj (hnone j (Nat.zero_le _))
      obtain ⟨hso, hsl⟩ := hstart
      refine ⟨hso, ?_⟩
      show min (resolveStart content raw (prevEnd - ov) + raw.length) content.length
          = resolveStart content raw (prevEnd - ov) + raw.length
      by_cases hraw : raw = []
      · have hlen0 : raw.length = 0 := by rw [hraw]; rfl
        rw [hlen0, Nat.add_zero]
        exact Nat.min_eq_left hsl
      · have hfit : resolveStart content raw (prevEnd - ov) + raw.length ≤ content.length := by
          have hpl : raw.length ≤ (content.drop (resolveStart content raw (prevEnd - ov))).length :=
            hso.length_le
          rw [List.length_drop] at hpl
          have := occursAt_le_length hso hraw
          omega
        exact Nat.min_eq_left hfit
    · exact ih (by simp) htl hsome

/-! Claims C4, C6, C7 about `chunkDocument`. -/

/-- Claim C4, counterexample to the claim as stated: with
`chunkOverlap = chunkSize = 2` (so `chunkOverlap >= chunkSize`),
`chunkDocument` raises no configuration error and does not stop before
chunking: it happily produces a chunk.  The source never validates the
configuration. -/
theorem overlap_ge_size_no_failfast_cex :
    (⟨2, 2⟩ : ChunkConfig).chunkSize ≤ (⟨2, 2⟩ : ChunkConfig).chunkOverlap
    ∧ chunkDocument ⟨['f'], ['a', 'b'], []⟩ ⟨2, 2⟩ [['a', 'b']]
        = [⟨['a', 'b'], ⟨['f'], 0, 0, 2⟩⟩] := by
  decide

/-- Claim C4 (corrected): `chunkDocument` performs no validation of
`chunkOverlap` against `chunkSize` and has no failure path: it never even
consults `chunkSize` (which is only handed to the external splitter), so a
configuration with `chunkOverlap >= chunkSize` is processed exactly like any
other configuration with the same `chunkOverlap`, with no error and no
clamping. -/
theorem chunkDocument_ignores_chunkSize (doc : Document) (size1 size2 overlap : Nat)
    (rawSplits : List (List Char)) :
    chunkDocument doc ⟨size1, overlap⟩ rawSplits
      = chunkDocument doc ⟨size2, overlap⟩ rawSplits := rfl

/-- Claim C6 (confirmed): every chunk returned by `chunkDocument` satisfies
`0 <= startOffset <= endOffset <= length of the original document content`;
the lower bound `0 <= startOffset` is inherent in the Nat model. -/
theorem chunk_offsets_in_bounds (doc : Document) (config : ChunkConfig)
    (rawSplits : List (List Char)) :
    ∀ c ∈ chunkDocument doc config rawSplits,
      c.metadata.startOffset ≤ c.metadata.endOffset
      ∧ c.metadata.endOffset ≤ doc.content.length := by
  intro c hc
  simp only [chunkDocument] at hc
  by_cases h1 : (trimL doc.content).length = 0
  · rw [if_pos h1] at hc
    exact absurd hc (List.not_mem_nil c)
  · rw [if_neg h1] at hc
    by_cases h2 : (rawSplits.filter (fun s => (trimL s).length > 0)).length = 0
    · rw [if_pos h2] at hc
      exact absurd hc (List.not_mem_nil c)
    · rw [if_neg h2] at hc
      obtain ⟨raw, off, _, _, _, h3, h4⟩ := mem_buildChunks hc
      constructor
      · rw [h4]
        exact le_max_left _ _
      · rw [h4, h3]
        exact max_le (Nat.min_le_right _ _) (Nat.min_le_right _ _)

/-- Witness for `chunk_offsets_in_bounds` at a concrete input. -/
theorem chunk_offsets_in_bounds_witness :
    (⟨['a', 'b'], ⟨['f'], 0, 0, 2⟩⟩ : Chunk)
        ∈ chunkDocument ⟨['f'], ['a', 'b'], []⟩ ⟨4, 0⟩ [['a', 'b']]
    ∧ ((⟨['a', 'b'], ⟨['f'], 0, 0, 2⟩⟩ : Chunk).metadata.startOffset
          ≤ (⟨['a', 'b'], ⟨['f'], 0, 0, 2⟩⟩ : Chunk).metadata.endOffset
        ∧ (⟨['a', 'b'], ⟨['f'], 0, 0, 2⟩⟩ : Chunk).metadata.endOffset
          ≤ (⟨['f'], ['a', 'b'], []⟩ : Document).content.length) :=
  ⟨by decide,
    chunk_offsets_in_bounds ⟨['f'], ['a', 'b'], []⟩ ⟨4, 0⟩ [['a', 'b']] _ (by decide)⟩

theorem buildChunks_indices (content filePath : List Char) :
    ∀ (pairs : List (List Char × OffsetPair)) (k : Nat),
    (buildChunks content filePath pairs k).map (fun c => c.metadata.chunkIndex)
      = List.range' k ((buildChunks content filePath pairs k).length) := by
  intro pairs
  induction pairs with
  | nil => intro k; simp [buildChunks]
  | cons p rest ih =>
    intro k
    obtain ⟨rawSplit, rawOffsets⟩ := p
    rw [buildChunks]
    by_cases hts : (trimL rawSplit).length = 0
    · rw [if_pos hts]
      exact ih k
    · rw [if_neg hts]
      rw [List.map_cons, List.length_cons, List.range'_succ, ih (k + 1)]

/-- Claim C7 (confirmed): the `chunkIndex` values of the chunks returned by
`chunkDocument` are exactly `0..n-1` in order with no gaps (indices are
assigned only to surviving fragments), and a document whose trimmed content
is empty yields zero chunks. -/
theorem chunk_indices_contiguous (doc : Document) (config : ChunkConfig)
    (rawSplits : List (List Char)) :
    (chunkDocument doc config rawSplits).map (fun c => c.metadata.chunkIndex)
      = List.range ((chunkDocument doc config rawSplits).length)
    ∧ (trimL doc.content = [] → chunkDocument doc config rawSplits = []) := by
  constructor
  · rw [List.range_eq_range']
    simp only [chunkDocument]
    by_cases h1 : (trimL doc.content).length = 0
    · rw [if_pos h1]
      rfl
    · rw [if_neg h1]
      by_cases h2 : (rawSplits.filter (fun s => (trimL s).length > 0)).length = 0
      · rw [if_pos h2]
        rfl
      · rw [if_neg h2]
        exact buildChunks_indices _ _ _ 0
  · intro h
    simp only [chunkDocument]
    rw [if_pos (by rw [h]; rfl)]

/-- Witness for `chunk_indices_contiguous`: a whitespace-only document yields
zero chunks. -/
theorem chunk_indices_contiguous_witness :
    trimL ([' '] : List Char) = []
    ∧ chunkDocument ⟨['f'], [' '], []⟩ ⟨4, 0⟩ [[' ']] = [] :=
  ⟨by decide, (chunk_indices_contiguous ⟨['f'], [' '], []⟩ ⟨4, 0⟩ [[' ']]).2 (by decide)⟩

/-! Claim C2: the trimmed slice at the stored offsets versus the stored chunk
content. -/

/-- Claim C2, counterexample to the claim as stated: when the splitter emits
a fragment that never occurs in the original text (the source anticipates
this: the splitter may normalize whitespace), the placeholder offsets point
at unrelated text, whose trimmed slice differs from the stored content. -/
theorem chunk_slice_trim_cex :
    ¬ SliceTrimAgrees ⟨['f'], ['a', 'b', 'c'], []⟩ ⟨4, 0⟩ [['x', 'y', 'z']] := by
  decide

/-- Claim C2 (corrected): whenever every raw fragment produced by the
splitter occurs somewhere in the original document (no placeholder fallback),
every chunk returned by `chunkDocument` satisfies: the slice
`document.content[startOffset:endOffset]`, after trimming, equals the stored
chunk content. -/
theorem chunk_slice_trim_of_found (doc : Document) (config : ChunkConfig)
    (rawSplits : List (List Char))
    (hfound : ∀ s ∈ rawSplits, occursSomewhere doc.content s = true) :
    SliceTrimAgrees doc config rawSplits := by
  intro c hc
  simp only [chunkDocument] at hc
  by_cases h1 : (trimL doc.content).length = 0
  · rw [if_pos h1] at hc
    exact absurd hc (List.not_mem_nil c)
  · rw [if_neg h1] at hc
    by_cases h2 : (rawSplits.filter (fun s => (trimL s).length > 0)).length = 0
    · rw [if_pos h2] at hc
      exact absurd hc (List.not_mem_nil c)
    · rw [if_neg h2] at hc
      obtain ⟨raw, off, hmem, hne, hcont, hstart, hend⟩ := mem_buildChunks hc
      have hrawmem : raw ∈ rawSplits.filter (fun s => (trimL s).length > 0) :=
        (List.of_mem_zip hmem).1
      have hsome : occursSomewhere doc.content raw = true :=
        hfound raw (List.mem_of_mem_filter hrawmem)
      obtain ⟨hso, hoe⟩ :=
        zip_offsets_found (Nat.zero_le _) hmem hsome
      have hrawne : raw ≠ [] := fun hnil => hne (by rw [hnil]; rfl)
      have hfit : off.startOffset + raw.length ≤ doc.content.length := by
        have hpl := hso.length_le
        rw [List.length_drop] at hpl
        have := occursAt_le_length hso hrawne
        omega
      obtain ⟨hlead, htrail, hsum⟩ := trim_lengths hne
      have hstart2 : c.metadata.startOffset
          = off.startOffset + (raw.length - (trimStartL raw).length) := by
        rw [hstart]
        exact Nat.min_eq_left (by omega)
      have hend2 : c.metadata.endOffset
          = off.startOffset + raw.length - (raw.length - (trimEndL raw).length) := by
        rw [hend, hstart2, hoe]
        rw [Nat.min_eq_left (by omega)]
        exact Nat.max_eq_right (by omega)
      rw [hcont, hstart2, hend2, slice_of_found hso hne]
      exact trimL_trimL raw

/-- Witness for `chunk_slice_trim_of_found` at a concrete input. -/
theorem chunk_slice_trim_witness :
    (∀ s ∈ [['a', 'b']], occursSomewhere ['a', 'b', 'c'] s = true)
    ∧ SliceTrimAgrees ⟨['f'], ['a', 'b', 'c'], []⟩ ⟨4, 0⟩ [['a', 'b']] :=
  ⟨by decide, chunk_slice_trim_of_found _ _ _ (by decide)⟩

/-! Claim C3: monotonicity of chunk offsets. -/

/-- Claim C3, counterexample to the claim as stated: with a valid
configuration (`chunkOverlap = 0 < 4 = chunkSize`), a fragment that is only
findable by the unanchored retry makes the second chunk's `startOffset`
regress below the first chunk's by more than `chunkOverlap`. -/
theorem offsets_monotone_cex :
    (⟨4, 0⟩ : ChunkConfig).chunkOverlap < (⟨4, 0⟩ : ChunkConfig).chunkSize
    ∧ startsMonotoneB (⟨4, 0⟩ : ChunkConfig).chunkOverlap
        (chunkDocument ⟨['f'], ['a', 'b', ' ', 'c', 'd'], []⟩ ⟨4, 0⟩
          [['c', 'd'], ['a', 'b']]) = false := by
  decide

theorem startsMonotoneB_cons {ov : Nat} {a : Chunk} {l : List Chunk}
    (hl : startsMonotoneB ov l = true)
    (hh : ∀ b ∈ l.head?, a.metadata.startOffset ≤ b.metadata.startOffset
        ∧ a.metadata.startOffset ≤ b.metadata.startOffset + ov) :
    startsMonotoneB ov (a :: l) = true := by
  cases l with
  | nil => rfl
  | cons b tl =>
    have hb := hh b rfl
    show ((decide _ && decide _) && startsMonotoneB ov (b :: tl)) = true
    rw [Bool.and_eq_true, Bool.and_eq_true]
    exact ⟨⟨decide_eq_true hb.1, decide_eq_true hb.2⟩, hl⟩

theorem buildChunks_anchored_mono {content fp : List Char} {ov : Nat} :
    ∀ {splits : List (List Char)} {prevEnd k : Nat},
    prevEnd ≤ content.length →
    anchoredResolved content ov splits prevEnd = true →
    (∀ s ∈ splits, ov ≤ (trimL s).length ∧ (trimL s).length ≠ 0) →
    startsMonotoneB ov (buildChunks content fp
        (splits.zip (findChunkOffsetsGo content ov splits prevEnd)) k) = true
    ∧ ∀ b ∈ (buildChunks content fp
        (splits.zip (findChunkOffsetsGo content ov splits prevEnd)) k).head?,
        prevEnd - ov ≤ b.metadata.startOffset := by
  intro splits
  induction splits with
  | nil =>
    intro prevEnd k _ _ _
    exact ⟨rfl, by simp [findChunkOffsetsGo, buildChunks]⟩
  | cons s rest ih =>
    intro prevEnd k hprev hanch hs
    obtain ⟨hov, hne0⟩ := hs s (List.mem_cons_self _ _)
    have hne : trimL s ≠ [] := fun h => hne0 (by rw [h]; rfl)
    cases hja : jsIndexOf content s (prevEnd - ov) with
    | none =>
      simp only [anchoredResolved, hja] at hanch
      exact Bool.noConfusion hanch
    | some i =>
      simp only [anchoredResolved, hja] at hanch
      have hrs : resolveStart content s (prevEnd - ov) = i := by
        rw [resolveStart, hja]
      have hss : prevEnd - ov ≤ content.length := by omega
      obtain ⟨hge, hocc, _⟩ := jsIndexOf_some hss hja
      have hsne : s ≠ [] := fun h => hne (by rw [h]; rfl)
      have hfit : i + s.length ≤ content.length := by
        have hpl := hocc.length_le
        rw [List.length_drop] at hpl
        have := occursAt_le_length hocc hsne
        omega
      have hmin : min (i + s.length) content.length = i + s.length :=
        Nat.min_eq_left hfit
      obtain ⟨hlead, _, hsum⟩ := trim_lengths hne
      simp only [findChunkOffsetsGo, hrs, hmin, List.zip_cons_cons, buildChunks,
        if_neg hne0] at *
      obtain ⟨ihmono, ihhead⟩ :=
        @ih (i + s.length) (k + 1) (by omega) hanch
          (fun t ht => hs t (List.mem_cons_of_mem _ ht))
      have hx0 : min (i + (s.length - (trimStartL s).length)) content.length
          ≤ i + s.length - ov := by
        have h1 : i + (s.length - (trimStartL s).length) ≤ i + s.length - ov := by
          omega
        exact le_trans (Nat.min_le_left _ _) h1
      refine ⟨startsMonotoneB_cons ihmono ?_, ?_⟩
      · intro b hb
        have hbs := ihhead b hb
        dsimp only
        constructor
        · omega
        · omega
      · intro b hb
        rw [List.head?_cons, Option.mem_def] at hb
        injection hb with hb2
        subst hb2
        dsimp only
        exact Nat.le_min.mpr ⟨by omega, hss⟩

/-- Claim C3 (corrected): provided every surviving fragment is located by the
anchored search (no unanchored retry and no placeholder fallback) and every
surviving fragment's trimmed length is at least `chunkOverlap`, the
`startOffset` values of the chunks returned by `chunkDocument` are
non-decreasing in `chunkIndex` order, and in particular never regress past
the previous chunk's start by more than `chunkOverlap`. -/
theorem offsets_monotone_of_anchored (doc : Document) (config : ChunkConfig)
    (rawSplits : List (List Char))
    (hanch : anchoredResolved doc.content config.chunkOverlap
        (rawSplits.filter (fun s => (trimL s).length > 0)) 0 = true)
    (hlen : ∀ s ∈ rawSplits.filter (fun s => (trimL s).length > 0),
        config.chunkOverlap ≤ (trimL s).length) :
    startsMonotoneB config.chunkOverlap (chunkDocument doc config rawSplits) = true := by
  simp only [chunkDocument]
  by_cases h1 : (trimL doc.content).length = 0
  · rw [if_pos h1]
    rfl
  · rw [if_neg h1]
    by_cases h2 : (rawSplits.filter (fun s => (trimL s).length > 0)).length = 0
    · rw [if_pos h2]
      rfl
    · rw [if_neg h2]
      refine (buildChunks_anchored_mono (Nat.zero_le _) hanch ?_).1
      intro s hsmem
      refine ⟨hlen s hsmem, ?_⟩
      have := (List.mem_filter.mp hsmem).2
      simp at this
      omega

/-- Witness for `offsets_monotone_of_anchored` at a concrete input. -/
theorem offsets_monotone_witness :
    anchoredResolved ['a', 'b', ' ', 'c', 'd'] 0
        ([['a', 'b'], ['c', 'd']].filter (fun s => (trimL s).length > 0)) 0 = true
    ∧ (∀ s ∈ [['a', 'b'], ['c', 'd']].filter (fun s => (trimL s).length > 0),
        (0 : Nat) ≤ (trimL s).length)
    ∧ startsMonotoneB 0 (chunkDocument ⟨['f'], ['a', 'b', ' ', 'c', 'd'], []⟩ ⟨4, 0⟩
        [['a', 'b'], ['c', 'd']]) = true :=
  ⟨by decide, by decide,
    offsets_monotone_of_anchored ⟨['f'], ['a', 'b', ' ', 'c', 'd'], []⟩ ⟨4, 0⟩
      [['a', 'b'], ['c', 'd']] (by decide) (by decide)⟩

/-! Claim C5: transaction behaviour of `insertDocuments`. -/

theorem insertChunksTx_some {docIdx : Nat} {chunkFails : Nat → Nat → Bool} :
    ∀ {chunks : List DocumentChunkInput} {j : Nat} {rows : List DbRow},
    insertChunksTx docIdx chunkFails chunks j = some rows →
    rows = chunks.map (DbRow.chunk docIdx) := by
  intro chunks
  induction chunks with
  | nil =>
    intro j rows h
    simp [insertChunksTx] at h
    rw [h, List.map_nil]
  | cons c rest ih =>
    intro j rows h
    rw [insertChunksTx] at h
    by_cases hf : chunkFails docIdx j
    · rw [if_pos hf] at h
      exact Option.noConfusion h
    · rw [if_neg hf] at h
      cases hrec : insertChunksTx docIdx chunkFails rest (j + 1) with
      | none => rw [hrec] at h; exact Option.noConfusion h
      | some rows2 =>
        rw [hrec] at h
        injection h with h2
        rw [← h2, List.map_cons, ih hrec]

theorem insertDocsTx_some {docFails : Nat → Bool} {chunkFails : Nat → Nat → Bool} :
    ∀ {docs : List DocumentWithChunksInput} {i : Nat} {rows : List DbRow},
    insertDocsTx docFails chunkFails docs i = some rows → rows = batchRows docs i := by
  intro docs
  induction docs with
  | nil =>
    intro i rows h
    simp [insertDocsTx] at h
    rw [h, batchRows]
  | cons d rest ih =>
    intro i rows h
    rw [insertDocsTx] at h
    by_cases hf : docFails i
    · rw [if_pos hf] at h
      exact Option.noConfusion h
    · rw [if_neg hf] at h
      cases hck : insertChunksTx i chunkFails d.chunks 0 with
      | none => rw [hck] at h; exact Option.noConfusion h
      | some rows2 =>
        rw [hck] at h
        cases hrec : insertDocsTx docFails chunkFails rest (i + 1) with
        | none => rw [hrec] at h; exact Option.noConfusion h
        | some more =>
          rw [hrec] at h
          injection h with h2
          rw [← h2, batchRows, insertChunksTx_some hck, ih hrec]

/-- Claim C5, counterexample to the claim as stated: a batch of two documents
where inserting document 1 fails.  Document 0 was inserted successfully
before the failure, yet `ROLLBACK` removes it too: the committed store stays
empty, so commits are not per-document independent. -/
theorem insertDocuments_rollback_cex :
    insertDocuments []
        [⟨⟨['a'], ['c'], ['p']⟩, []⟩, ⟨⟨['b'], ['c'], ['q']⟩, []⟩]
        (fun i => i == 1) (fun _ _ => false)
      = ([], false)
    ∧ DbRow.doc 0 ⟨['a'], ['c'], ['p']⟩
        ∉ (insertDocuments []
            [⟨⟨['a'], ['c'], ['p']⟩, []⟩, ⟨⟨['b'], ['c'], ['q']⟩, []⟩]
            (fun i => i == 1) (fun _ _ => false)).1 := by
  decide

/-- Claim C5 (corrected): persistence of one ingest batch is atomic for the
whole batch, not per document: a single transaction spans every document
passed to `insertDocuments` (and `ingest` passes all documents in one call),
so on success the committed store gains exactly the batch's rows, and on any
failure — even while inserting document N — the committed store is unchanged,
rolling documents 1..N-1 back as well.  Atomicity of each single document
together with its chunks follows a fortiori; per-document independence does
not hold. -/
theorem insertDocuments_batch_atomic (db : List DbRow)
    (docs : List DocumentWithChunksInput) (docFails : Nat → Bool)
    (chunkFails : Nat → Nat → Bool) :
    (insertDocuments db docs docFails chunkFails).1
      = if (insertDocuments db docs docFails chunkFails).2
        then db ++ batchRows docs 0
        else db := by
  rw [insertDocuments]
  cases h : insertDocsTx docFails chunkFails docs 0 with
  | none => rfl
  | some pending =>
    rw [insertDocsTx_some h]
    rfl

/-! Claim C9: `embedChunks` is a per-chunk frame-preserving map. -/

/-- Claim C9 (confirmed): assuming the embedding provider succeeds on each
chunk, `embedChunks` returns exactly one embedded chunk per input chunk, in
the same order; each output keeps the input chunk (content and all metadata
fields) unchanged and only adds the embedding of its content. -/
theorem embedChunks_is_frame_preserving_map (embed : List Char → List ℚ)
    (chunks : List Chunk) :
    embedChunks embed chunks
      = chunks.map (fun c => ⟨c, embed c.content⟩) := by
  induction chunks with
  | nil => rfl
  | cons c rest ih => rw [embedChunks, ih, List.map_cons]

/-! Claim C10: `runEval` error handling. -/

theorem runEvalGo_length (judge : SearchResult → Except (List Char) ChunkEvaluation) :
    ∀ results : List SearchResult, (runEvalGo judge results).length = results.length := by
  intro results
  induction results with
  | nil => rfl
  | cons r rest ih => rw [runEvalGo, List.length_cons, List.length_cons, ih]

theorem runEvalGo_failed (judge : SearchResult → Except (List Char) ChunkEvaluation) :
    ∀ (results : List SearchResult) (i : Nat) (r : SearchResult) (msg : List Char),
    results[i]? = some r → judge r = Except.error msg →
    (runEvalGo judge results)[i]? = some (failedEvaluation r) := by
  intro results
  induction results with
  | nil => intro i r msg h; simp at h
  | cons a rest ih =>
    intro i r msg h hj
    cases i with
    | zero =>
      rw [List.getElem?_cons_zero] at h
      injection h with h2
      subst h2
      rw [runEvalGo, List.getElem?_cons_zero, hj]
    | succ i =>
      rw [List.getElem?_cons_succ] at h
      rw [runEvalGo, List.getElem?_cons_succ]
      exact ih i r msg h hj

/-- Claim C10 (confirmed): `runEval` does not abort when judging a retrieved
chunk throws: it returns one evaluation per retrieved chunk, and every chunk
whose judge call fails is recorded with `relevance = 1`, `sufficiency = 1`
and the fixed failure reasoning string, while the loop continues with the
remaining chunks. -/
theorem runEval_failure_tolerant
    (judge : SearchResult → Except (List Char) ChunkEvaluation)
    (query : List Char) (results : List SearchResult) :
    (runEval judge query results).chunks.length = results.length
    ∧ ∀ (i : Nat) (r : SearchResult) (msg : List Char),
      results[i]? = some r → judge r = Except.error msg →
      (runEval judge query results).chunks[i]? = some (failedEvaluation r) := by
  constructor
  · exact runEvalGo_length judge results
  · intro i r msg h hj
    exact runEvalGo_failed judge results i r msg h hj

/-- Witness for `runEval_failure_tolerant` at a concrete input: a judge that
always throws. -/
theorem runEval_failure_witness :
    ([(⟨0, 0, ['x'], ['c'], ['p'], 3, 0, 1, 1, none⟩ : SearchResult)])[0]?
        = some (⟨0, 0, ['x'], ['c'], ['p'], 3, 0, 1, 1, none⟩ : SearchResult)
    ∧ (fun (_ : SearchResult) => (Except.error ['b'] : Except (List Char) ChunkEvaluation))
        (⟨0, 0, ['x'], ['c'], ['p'], 3, 0, 1, 1, none⟩ : SearchResult) = Except.error ['b']
    ∧ (runEval (fun _ => Except.error ['b']) ['q']
        [⟨0, 0, ['x'], ['c'], ['p'], 3, 0, 1, 1, none⟩]).chunks[0]?
      = some (failedEvaluation ⟨0, 0, ['x'], ['c'], ['p'], 3, 0, 1, 1, none⟩) :=
  ⟨rfl, rfl,
    (runEval_failure_tolerant (fun _ => Except.error ['b']) ['q']
      [⟨0, 0, ['x'], ['c'], ['p'], 3, 0, 1, 1, none⟩]).2 0 _ ['b'] rfl rfl⟩

/-! Claim C8: `retrieve` and `searchByVector`. -/

/-- Claim C8 (confirmed): for every query, optional category filter and
`topK`, `retrieve` returns at most `topK` results, ordered by descending
similarity; when a category is supplied every returned result's category
equals it, and with no category the WHERE clause keeps exactly the rows with
a non-null embedding (all categories are searched). -/
theorem retrieve_spec (dist : List ℚ → List ℚ → ℚ) (table : List StoredChunkRow)
    (embedQuery : List Char → List ℚ) (query : List Char) (topK : Nat)
    (category : Option (List Char)) :
    (retrieve dist table embedQuery query topK category).results.length ≤ topK
    ∧ List.Pairwise (fun a b => b.similarity ≤ a.similarity)
        (retrieve dist table embedQuery query topK category).results
    ∧ (∀ c, category = some c →
        ∀ r ∈ (retrieve dist table embedQuery query topK category).results,
          r.category = c)
    ∧ (∀ row, whereRow none row = row.embedding.isSome) := by
  refine ⟨?_, ?_, ?_, ?_⟩
  · show (List.map _ (List.take topK _)).length ≤ topK
    rw [List.length_map]
    exact List.length_take_le _ _
  · show List.Pairwise _ (List.map _ (List.take topK
      (List.insertionSort (distLE dist (embedQuery query))
        (table.filter (whereRow category)))))
    haveI : IsTotal StoredChunkRow (distLE dist (embedQuery query)) :=
      ⟨fun a b => le_total _ _⟩
    haveI : IsTrans StoredChunkRow (distLE dist (embedQuery query)) :=
      ⟨fun _ _ _ hab hbc => le_trans hab hbc⟩
    have hsorted : List.Pairwise (distLE dist (embedQuery query))
        (List.insertionSort (distLE dist (embedQuery query))
          (table.filter (whereRow category))) :=
      List.sorted_insertionSort _ _
    have htake := hsorted.sublist (List.take_sublist topK _)
    refine htake.map _ (fun a b hab => ?_)
    exact sub_le_sub_left hab 1
  · intro c hcat r hr
    obtain ⟨row, hrowmem, rfl⟩ := List.mem_map.mp hr
    have hrow2 := List.mem_of_mem_take hrowmem
    have hrow3 : row ∈ table.filter (whereRow category) :=
      (List.mem_insertionSort _).mp hrow2
    have hw := (List.mem_filter.mp hrow3).2
    subst hcat
    rw [whereRow, Bool.and_eq_true] at hw
    have hw2 := hw.2
    simp only [decide_eq_true_eq] at hw2
    exact hw2
  · intro row
    rw [whereRow]
    exact Bool.and_true _

/-- Witness for `retrieve_spec` at a concrete input with a category filter. -/
theorem retrieve_spec_witness :
    (some ['s'] : Option (List Char)) = some ['s']
    ∧ ∀ r ∈ (retrieve (fun _ _ => 0)
        [⟨1, 1, ['x'], ['s'], ['p'], 0, 0, 1, some []⟩]
        (fun _ => []) ['q'] 5 (some ['s'])).results, r.category = ['s'] :=
  ⟨rfl,
    (retrieve_spec (fun _ _ => 0)
      [⟨1, 1, ['x'], ['s'], ['p'], 0, 0, 1, some []⟩]
      (fun _ => []) ['q'] 5 (some ['s'])).2.2.1 ['s'] rfl⟩

end RagPipeline
